import Mathlib

/-!
Verification development for the parallel adaptive quadrature repository.

The repository's core (src/src/lifo-algorithm/solver2-1Queue.c, and the
variants in src/unnamed/) computes a definite integral by adaptive
Simpson's rule.  Work items (`struct Interval`) live in a bounded LIFO
store (`struct Queue`); worker threads pop an interval, evaluate the
two Simpson estimates, and either accept the interval's contribution or
split it in two and push both halves back.

The shallow embedding below models C `double` arithmetic with exact
rationals (ℚ), fallible C code (`exit(1)` on a full/empty store) with
`Option`, and the OpenMP worker loops with explicit small-step state
machines whose atomic steps are the code's critical sections.  The step
relations over-approximate the scheduler: any interleaving of
per-thread critical sections is a transition, so invariants proved over
all reachable states hold in particular for the real executions.
-/

namespace AdaptiveQuad

/-- `struct Interval` (solver2-1Queue.c lines 10-17): a subinterval of the
integration domain with the tolerance and the cached function values at
its left end, midpoint and right end. -/
structure Interval where
  left : ℚ
  right : ℚ
  tol : ℚ
  f_left : ℚ
  f_mid : ℚ
  f_right : ℚ
deriving DecidableEq, Repr

/-- The absolute width floor `1.0e-12` from the acceptance test
(solver2-1Queue.c line 117). -/
def floorWidth : ℚ := 1 / 10 ^ 12

/-- Outcome of one refinement step: either the interval is accepted with
its (Richardson-corrected) contribution, or it is split into two halves. -/
inductive RefineResult where
  | accept (v : ℚ)
  | split (i1 i2 : Interval)
deriving DecidableEq, Repr

/-- The quadrature refinement step shared by every variant
(solver2-1Queue.c lines 106-152, src/unnamed/part_000 lines 102-136,
src/unnamed/part_002 lines 19-55): compute the quarter/three-quarter
evaluations `fd`, `fe`, the 3-point estimate `q1` and the 5-point
estimate `q2`; accept when `|q2 - q1| < tol` or the width is below the
`1.0e-12` floor, contributing `q2 + (q2 - q1)/15`; otherwise split at
the midpoint `c`, the children reusing the parent's cached values. -/
def refineStep (f : ℚ → ℚ) (iv : Interval) : RefineResult :=
  let h := iv.right - iv.left
  let c := (iv.left + iv.right) / 2
  let d := (iv.left + c) / 2
  let e := (c + iv.right) / 2
  let fd := f d
  let fe := f e
  let q1 := h / 6 * (iv.f_left + 4 * iv.f_mid + iv.f_right)
  let q2 := h / 12 * (iv.f_left + 4 * fd + 2 * iv.f_mid + 4 * fe + iv.f_right)
  if |q2 - q1| < iv.tol ∨ iv.right - iv.left < floorWidth then
    .accept (q2 + (q2 - q1) / 15)
  else
    .split ⟨iv.left, c, iv.tol, iv.f_left, fd, iv.f_mid⟩
           ⟨c, iv.right, iv.tol, iv.f_mid, fe, iv.f_right⟩

/-- Spec-side 3-point estimate, written from the spec's words:
`q1 = h/6 · (f_left + 4·f_mid + f_right)` with `h = right - left`. -/
def q1spec (iv : Interval) : ℚ :=
  (iv.right - iv.left) / 6 * (iv.f_left + 4 * iv.f_mid + iv.f_right)

/-- Spec-side 5-point estimate, written from the spec's words:
`q2 = h/12 · (f_left + 4·f_quarter + 2·f_mid + 4·f_three_quarter +
f_right)`, where the quarter and three-quarter points of `[left, right]`
are `left + h/4` and `left + 3·(h/4)`. -/
def q2spec (f : ℚ → ℚ) (iv : Interval) : ℚ :=
  (iv.right - iv.left) / 12 *
    (iv.f_left + 4 * f (iv.left + (iv.right - iv.left) / 4) + 2 * iv.f_mid +
      4 * f (iv.left + 3 * ((iv.right - iv.left) / 4)) + iv.f_right)

/-- The queue capacity `MAXQUEUE` (solver2-1Queue.c line 8). -/
def MAXQUEUE : ℕ := 10000

/-- `struct Queue` (solver2-1Queue.c lines 19-23): the array
`entry[0..top]` is modelled as the list of live entries with the list
head playing the role of `entry[top]`; the lock is the exclusion
discipline of the step relations below. -/
structure Queue where
  entry : List Interval
deriving DecidableEq, Repr

/-- `enqueue` (solver2-1Queue.c lines 29-43): append at the top, or abort
(`exit(1)`, modelled as `none`) when the store already holds `MAXQUEUE`
entries (`top == MAXQUEUE - 1`). -/
def enqueue (interval : Interval) (queue : Queue) : Option Queue :=
  if queue.entry.length = MAXQUEUE then none
  else some ⟨interval :: queue.entry⟩

/-- `dequeue` (solver2-1Queue.c lines 46-64): remove and return the top
entry, or abort (`exit(1)`, modelled as `none`) when `top == -1`. -/
def dequeue (queue : Queue) : Option (Interval × Queue) :=
  match queue.entry with
  | [] => none
  | interval :: rest => some (interval, ⟨rest⟩)

/-- `isempty` (solver2-1Queue.c lines 73-79). -/
def Queue.isempty (queue : Queue) : Bool :=
  queue.entry.isEmpty

/-- `size` (solver2-1Queue.c lines 82-84): `top + 1`. -/
def Queue.size (queue : Queue) : ℕ :=
  queue.entry.length

/-- The seeding done by `main` (solver2-1Queue.c lines 166-175): the
whole domain `[0, 10]` with tolerance `1e-06` and the three initial
evaluations.  The integrand (`func1` in the C sources) is kept abstract:
the spec treats the integrated function as an external collaborator. -/
def mkSeed (f : ℚ → ℚ) : Interval :=
  { left := 0, right := 10, tol := 1 / 1000000
    f_left := f 0, f_right := f 10, f_mid := f ((0 + 10) / 2) }

/-- Local state of one worker thread: about to attempt a pop (`idle`),
holding a popped interval (`working`), or out of its loop (`exited`). -/
inductive TState where
  | idle
  | working (iv : Interval)
  | exited
deriving DecidableEq, Repr

/-- Global state of the solver2-1Queue program: the store, the two
counters `total` (created) and `total_processed` (resolved), the
accumulator `quad`, the per-thread states, and whether `exit(0)` was
called (line 126).  `acceptedWidth` is a ghost observer recording the
summed width of all accepted intervals; it shadows no source variable
and influences no transition. -/
structure MState where
  queue : List Interval
  total : ℕ
  total_processed : ℕ
  quad : ℚ
  threads : List TState
  halted : Bool
  acceptedWidth : ℚ
deriving DecidableEq, Repr

/-- Initial state built by `main` (solver2-1Queue.c lines 160-177):
seed interval in the store, `total = 1`, `n` workers about to loop. -/
def solver2Init (f : ℚ → ℚ) (n : ℕ) : MState :=
  { queue := [mkSeed f], total := 1, total_processed := 0, quad := 0
    threads := List.replicate n .idle, halted := false, acceptedWidth := 0 }

/-- One atomic step of the solver2-1Queue worker loop (lines 93-154),
at the granularity of its critical sections:
`pop` is the combined emptiness-check-and-dequeue (lines 96-102) when
the store is non-empty; `emptyExit` is the `break` on line 104 when the
store is observed empty; `acceptCont`/`acceptHalt` are the acceptance
critical section (lines 119-128), halting the whole program (`exit(0)`)
when `total_processed` reaches `total`; `split` is the split-and-push
critical section (lines 147-152). -/
inductive Solver2Step (f : ℚ → ℚ) : MState → MState → Prop where
  | pop (s : MState) (t : ℕ) (iv : Interval) (rest : List Interval) :
      s.halted = false → s.threads.get? t = some .idle → s.queue = iv :: rest →
      Solver2Step f s { s with queue := rest, threads := s.threads.set t (.working iv) }
  | emptyExit (s : MState) (t : ℕ) :
      s.halted = false → s.threads.get? t = some .idle → s.queue = [] →
      Solver2Step f s { s with threads := s.threads.set t .exited }
  | acceptCont (s : MState) (t : ℕ) (iv : Interval) (v : ℚ) :
      s.halted = false → s.threads.get? t = some (.working iv) →
      refineStep f iv = .accept v → s.total_processed + 1 ≠ s.total →
      Solver2Step f s { s with quad := s.quad + v
                               total_processed := s.total_processed + 1
                               acceptedWidth := s.acceptedWidth + (iv.right - iv.left)
                               threads := s.threads.set t .idle }
  | acceptHalt (s : MState) (t : ℕ) (iv : Interval) (v : ℚ) :
      s.halted = false → s.threads.get? t = some (.working iv) →
      refineStep f iv = .accept v → s.total_processed + 1 = s.total →
      Solver2Step f s { s with quad := s.quad + v
                               total_processed := s.total_processed + 1
                               acceptedWidth := s.acceptedWidth + (iv.right - iv.left)
                               threads := s.threads.set t .exited, halted := true }
  | split (s : MState) (t : ℕ) (iv i1 i2 : Interval) :
      s.halted = false → s.threads.get? t = some (.working iv) →
      refineStep f iv = .split i1 i2 →
      Solver2Step f s { s with queue := i2 :: i1 :: s.queue, total := s.total + 2
                               threads := s.threads.set t .idle }

/-- Reachable states of the solver2-1Queue program run with `n` workers. -/
inductive Solver2Reach (f : ℚ → ℚ) (n : ℕ) : MState → Prop where
  | init : Solver2Reach f n (solver2Init f n)
  | step {s s' : MState} : Solver2Reach f n s → Solver2Step f s s' → Solver2Reach f n s'

/-- Global state of the src/unnamed/part_000 program: as `MState` but
with the shared termination flag `done` instead of `exit(0)`. -/
structure PState where
  queue : List Interval
  total : ℕ
  total_processed : ℕ
  quad : ℚ
  threads : List TState
  done : Bool
deriving DecidableEq, Repr

/-- One atomic step of the part_000 worker loop (lines 77-146), at the
granularity of its critical sections: `exitDone` is the loop exit once
the `done` flag is observed; `pop` is the pop branch of the
`queue_access` critical section (lines 82-91); `setDone` is its other
branch, setting `done` only when the store is empty and
`total_processed == total` are observed together, after which the
setting thread leaves its loop; `retry` is the spin when the store is
empty but the counters differ (lines 96-100); `accept` and `psplit` are
the acceptance updates (lines 114-119) and the `queue_update` critical
section (lines 139-144). -/
inductive Part000Step (f : ℚ → ℚ) : PState → PState → Prop where
  | exitDone (s : PState) (t : ℕ) :
      s.threads.get? t = some .idle → s.done = true →
      Part000Step f s { s with threads := s.threads.set t .exited }
  | pop (s : PState) (t : ℕ) (iv : Interval) (rest : List Interval) :
      s.threads.get? t = some .idle → s.queue = iv :: rest →
      Part000Step f s { s with queue := rest, threads := s.threads.set t (.working iv) }
  | setDone (s : PState) (t : ℕ) :
      s.threads.get? t = some .idle → s.queue = [] →
      s.total_processed = s.total →
      Part000Step f s { s with done := true, threads := s.threads.set t .exited }
  | retry (s : PState) (t : ℕ) :
      s.threads.get? t = some .idle → s.queue = [] →
      s.total_processed ≠ s.total → s.done = false →
      Part000Step f s s
  | accept (s : PState) (t : ℕ) (iv : Interval) (v : ℚ) :
      s.threads.get? t = some (.working iv) → refineStep f iv = .accept v →
      Part000Step f s { s with quad := s.quad + v
                               total_processed := s.total_processed + 1
                               threads := s.threads.set t .idle }
  | psplit (s : PState) (t : ℕ) (iv i1 i2 : Interval) :
      s.threads.get? t = some (.working iv) → refineStep f iv = .split i1 i2 →
      Part000Step f s { s with queue := i2 :: i1 :: s.queue, total := s.total + 2
                               threads := s.threads.set t .idle }

/-- The non-parallel recursive adaptive Simpson integrator
(src/unnamed/part_002, `simpson`, lines 17-68; the OpenMP tasks compute
exactly the two recursive calls, so the sequential semantics is
`quad1 + quad2`).  The C recursion has no structural decrease, so the
embedding takes a fuel argument; `none` means the fuel ran out. -/
def simpsonRec (f : ℚ → ℚ) : ℕ → Interval → Option ℚ
  | 0, _ => none
  | n + 1, iv =>
    match refineStep f iv with
    | .accept v => some v
    | .split i1 i2 =>
      match simpsonRec f n i1, simpsonRec f n i2 with
      | some v1, some v2 => some (v1 + v2)
      | _, _ => none

/-- Outcome of a run of the solver2-1Queue `simpson` routine: either the
routine returns `quad` to its caller (and `main` prints it), or the
process dies inside the loop through `exit(0)` on line 126 with `quad`
accumulated but never returned. -/
inductive RunResult where
  | returned (q : ℚ)
  | exitedEarly (q : ℚ)
deriving DecidableEq, Repr

/-- Deterministic execution of the solver2-1Queue worker loop with
exactly one worker thread (lines 93-154): the stack (head = top),
accumulator `quad`, and the counters `total_processed` and `total` are
threaded through; an empty store means the loop breaks and `simpson`
returns; an acceptance that makes `total_processed` reach `total` is
the `exit(0)` path.  Fuel-indexed; `none` means the fuel ran out. -/
def runQueue (f : ℚ → ℚ) : ℕ → List Interval → ℚ → ℕ → ℕ → Option RunResult
  | 0, _, _, _, _ => none
  | _ + 1, [], quad, _, _ => some (.returned quad)
  | n + 1, iv :: rest, quad, tp, total =>
    match refineStep f iv with
    | .accept v =>
      if tp + 1 = total then some (.exitedEarly (quad + v))
      else runQueue f n rest (quad + v) (tp + 1) total
    | .split i1 i2 => runQueue f n (i2 :: i1 :: rest) quad tp (total + 2)

/-- Big-step evaluation relation of the recursive adaptive Simpson
integrator: `SimpEval f iv v` holds when the recursion on `iv` ends and
yields `v`. -/
inductive SimpEval (f : ℚ → ℚ) : Interval → ℚ → Prop where
  | accept {iv : Interval} {v : ℚ} :
      refineStep f iv = .accept v → SimpEval f iv v
  | split {iv i1 i2 : Interval} {v1 v2 : ℚ} :
      refineStep f iv = .split i1 i2 → SimpEval f i1 v1 → SimpEval f i2 v2 →
      SimpEval f iv (v1 + v2)

/-- Sum of the recursive integrals of the intervals on a stack. -/
inductive StackSum (f : ℚ → ℚ) : List Interval → ℚ → Prop where
  | nil : StackSum f [] 0
  | cons {iv : Interval} {v : ℚ} {rest : List Interval} {σ : ℚ} :
      SimpEval f iv v → StackSum f rest σ → StackSum f (iv :: rest) (v + σ)

/-- Width of an interval. -/
def width (iv : Interval) : ℚ := iv.right - iv.left

/-- Width held by a thread: the width of its popped interval, if any. -/
def widthOf : TState → ℚ
  | .working iv => width iv
  | _ => 0

/-- Counts a thread as 1 exactly when it holds a popped interval. -/
def workOne : TState → ℕ
  | .working _ => 1
  | _ => 0

/-- The least number of halvings after which an interval's width falls
below the `1.0e-12` floor, forcing acceptance. -/
def depthNeed (iv : Interval) : ℕ :=
  Nat.find (p := fun n => iv.right - iv.left < 2 ^ n * floorWidth)
    (by
      obtain ⟨n, hn⟩ :=
        pow_unbounded_of_one_lt (α := ℚ) ((iv.right - iv.left) / floorWidth) one_lt_two
      exact ⟨n, by
        have hf : (0 : ℚ) < floorWidth := by norm_num [floorWidth]
        calc iv.right - iv.left = (iv.right - iv.left) / floorWidth * floorWidth := by
              field_simp
          _ < 2 ^ n * floorWidth := by
              exact mul_lt_mul_of_pos_right hn hf⟩)

/-- Termination potential of one interval. -/
def pot (iv : Interval) : ℕ := 6 * 2 ^ depthNeed iv - 3

/-- Termination potential contributed by one thread. -/
def tmeasure : TState → ℕ
  | .idle => 2
  | .working iv => pot iv + 1
  | .exited => 0

/-- Termination potential of a whole machine state: every solver2-1Queue
step strictly decreases it. -/
def psi (s : MState) : ℕ :=
  (s.queue.map pot).sum + (s.threads.map tmeasure).sum

/-- A constant integrand, the spec's concrete no-split scenario
(`f(x) = 5` over `[0, 10]` must yield `50` after one acceptance). -/
def f5 : ℚ → ℚ := fun _ => 5

/-- A quartic integrand: Simpson's rule is not exact on it, so the seed
interval splits when the tolerance is modest. -/
def f4 : ℚ → ℚ := fun x => x * x * x * x

/-- The final state of the single-worker solver2-1Queue run on the
constant integrand: the unique interval was accepted, `total_processed`
reached `total`, and the program died in `exit(0)` with the result 50
accumulated but never returned. -/
def haltFinal : MState :=
  { queue := [], total := 1, total_processed := 1, quad := 50
    threads := [.exited], halted := true, acceptedWidth := 10 }

/-- The intermediate state of that run, after the single worker popped
the seed interval. -/
def haltMid : MState :=
  { queue := [], total := 1, total_processed := 0, quad := 0
    threads := [.working (mkSeed f5)], halted := false, acceptedWidth := 0 }

/-- Whole-domain interval for the quartic integrand with tolerance 100:
a concrete input on which the seed splits once and both halves are then
accepted. -/
def iv4 : Interval :=
  { left := 0, right := 10, tol := 100, f_left := 0, f_mid := 625, f_right := 10000 }

/-- Left child of `iv4` produced by the refinement step. -/
def c41 : Interval :=
  { left := 0, right := 5, tol := 100, f_left := 0, f_mid := (625 : ℚ) / 16, f_right := 625 }

/-- Right child of `iv4` produced by the refinement step. -/
def c42 : Interval :=
  { left := 5, right := 10, tol := 100, f_left := 625, f_mid := (50625 : ℚ) / 16
    f_right := 10000 }

/-- A reachable state of the two-worker solver2-1Queue run on the
constant integrand: worker 0 has popped the only interval, so the store
is momentarily empty while `total_processed = 0 ≠ 1 = total`. -/
def cexMid : MState :=
  { queue := [], total := 1, total_processed := 0, quad := 0
    threads := [.working (mkSeed f5), .idle], halted := false, acceptedWidth := 0 }

/-- The successor of `cexMid` in which worker 1, having observed the
momentarily empty store, has exited its loop for good. -/
def cexExit : MState :=
  { queue := [], total := 1, total_processed := 0, quad := 0
    threads := [.working (mkSeed f5), .exited], halted := false, acceptedWidth := 0 }

/-- The construction-time invariant of every interval (spec §3): the
boundaries are ordered and the three cached values are genuine
evaluations of the integrand at the left end, midpoint and right end. -/
def WFInterval (f : ℚ → ℚ) (iv : Interval) : Prop :=
  iv.left < iv.right ∧ iv.f_left = f iv.left ∧
    iv.f_mid = f ((iv.left + iv.right) / 2) ∧ iv.f_right = f iv.right

/-- Initial state of a one-worker part_000 run on the constant integrand. -/
def p0 : PState :=
  { queue := [mkSeed f5], total := 1, total_processed := 0, quad := 0
    threads := [.idle], done := false }

/-- Its successor after the worker popped the seed interval. -/
def p1 : PState :=
  { queue := [], total := 1, total_processed := 0, quad := 0
    threads := [.working (mkSeed f5)], done := false }

/-! ## List helper lemmas -/

theorem get?_set_self {α : Type*} (l : List α) (i : ℕ) (a y : α) (h : l.get? i = some y) :
    (l.set i a).get? i = some a := by
  induction l generalizing i with
  | nil => simp at h
  | cons x xs ih =>
    cases i with
    | zero => rfl
    | succ j => exact ih j h

theorem get?_set_other {α : Type*} (l : List α) (i j : ℕ) (a : α) (h : i ≠ j) :
    (l.set i a).get? j = l.get? j := by
  induction l generalizing i j with
  | nil => rfl
  | cons x xs ih =>
    cases i with
    | zero =>
      cases j with
      | zero => exact absurd rfl h
      | succ k => rfl
    | succ i' =>
      cases j with
      | zero => rfl
      | succ k => exact ih i' k (fun e => h (by rw [e]))

theorem map_sum_set {α M : Type*} [AddCommMonoid M] (m : α → M) (l : List α) (i : ℕ)
    (a y : α) (h : l.get? i = some y) :
    ((l.set i a).map m).sum + m y = (l.map m).sum + m a := by
  induction l generalizing i with
  | nil => simp at h
  | cons x xs ih =>
    cases i with
    | zero =>
      obtain rfl : x = y := by
        have h0 : some x = some y := h
        injection h0
      simp only [List.set, List.map_cons, List.sum_cons]
      abel
    | succ j =>
      have h' : xs.get? j = some y := h
      simp only [List.set, List.map_cons, List.sum_cons]
      rw [add_assoc, ih j h', ← add_assoc]

theorem mem_of_mem_set {α : Type*} {x a : α} :
    ∀ {l : List α} {i : ℕ}, x ∈ l.set i a → x ∈ l ∨ x = a := by
  intro l
  induction l with
  | nil => intro i h; simp at h
  | cons z zs ih =>
    intro i h
    cases i with
    | zero =>
      rcases List.mem_cons.mp h with h1 | h1
      · exact Or.inr h1
      · exact Or.inl (List.mem_cons_of_mem z h1)
    | succ j =>
      rcases List.mem_cons.mp h with h1 | h1
      · exact Or.inl (h1 ▸ List.mem_cons_self z zs)
      · rcases ih h1 with h2 | h2
        · exact Or.inl (List.mem_cons_of_mem z h2)
        · exact Or.inr h2

/-! ## The refinement step, rewritten through the spec-side estimates -/

theorem refineStep_eq (f : ℚ → ℚ) (iv : Interval) :
    refineStep f iv =
      if |q2spec f iv - q1spec iv| < iv.tol ∨ iv.right - iv.left < floorWidth then
        .accept (q2spec f iv + (q2spec f iv - q1spec iv) / 15)
      else
        .split { left := iv.left, right := (iv.left + iv.right) / 2, tol := iv.tol,
                 f_left := iv.f_left, f_mid := f (iv.left + (iv.right - iv.left) / 4),
                 f_right := iv.f_mid }
               { left := (iv.left + iv.right) / 2, right := iv.right, tol := iv.tol,
                 f_left := iv.f_mid, f_mid := f (iv.left + 3 * ((iv.right - iv.left) / 4)),
                 f_right := iv.f_right } := by
  have hd : (iv.left + (iv.left + iv.right) / 2) / 2 = iv.left + (iv.right - iv.left) / 4 := by
    ring
  have he : ((iv.left + iv.right) / 2 + iv.right) / 2
      = iv.left + 3 * ((iv.right - iv.left) / 4) := by ring
  simp only [refineStep, q1spec, q2spec]
  rw [hd, he]

/-! ## Concrete evaluations of the refinement step -/

theorem refineStep_f5_seed : refineStep f5 (mkSeed f5) = .accept 50 := by
  rw [refineStep_eq]
  have hq1 : q1spec (mkSeed f5) = 50 := by norm_num [q1spec, mkSeed, f5]
  have hq2 : q2spec f5 (mkSeed f5) = 50 := by norm_num [q2spec, mkSeed, f5]
  rw [hq1, hq2]
  norm_num [mkSeed]

theorem refineStep_f4_root : refineStep f4 iv4 = .split c41 c42 := by
  rw [refineStep_eq]
  have hd : q2spec f4 iv4 - q1spec iv4 = -(3125 / 4) := by
    norm_num [q1spec, q2spec, iv4, f4]
  have hc : ¬(|q2spec f4 iv4 - q1spec iv4| < iv4.tol ∨ iv4.right - iv4.left < floorWidth) := by
    rw [hd, abs_neg, abs_of_nonneg (by norm_num : (0:ℚ) ≤ 3125 / 4)]
    norm_num [iv4, floorWidth]
  rw [if_neg hc]
  norm_num [iv4, c41, c42, f4]

theorem refineStep_f4_c41 : refineStep f4 c41 = .accept 625 := by
  rw [refineStep_eq]
  have hd : q2spec f4 c41 - q1spec c41 = -(3125 / 128) := by
    norm_num [q1spec, q2spec, c41, f4]
  have hc : |q2spec f4 c41 - q1spec c41| < c41.tol ∨ c41.right - c41.left < floorWidth := by
    refine Or.inl ?h
    rw [hd, abs_neg, abs_of_nonneg (by norm_num : (0:ℚ) ≤ 3125 / 128)]
    norm_num [c41]
  rw [if_pos hc]
  have hv : q2spec f4 c41 = 240625 / 384 := by norm_num [q2spec, c41, f4]
  rw [hd, hv]
  norm_num

theorem refineStep_f4_c42 : refineStep f4 c42 = .accept 19375 := by
  rw [refineStep_eq]
  have hd : q2spec f4 c42 - q1spec c42 = -(3125 / 128) := by
    norm_num [q1spec, q2spec, c42, f4]
  have hc : |q2spec f4 c42 - q1spec c42| < c42.tol ∨ c42.right - c42.left < floorWidth := by
    refine Or.inl ?h
    rw [hd, abs_neg, abs_of_nonneg (by norm_num : (0:ℚ) ≤ 3125 / 128)]
    norm_num [c42]
  rw [if_pos hc]
  have hv : q2spec f4 c42 = 7440625 / 384 := by norm_num [q2spec, c42, f4]
  rw [hd, hv]
  norm_num

/-! ## Unfolding equations for the fuel-indexed executions -/

theorem runQueue_zero (f : ℚ → ℚ) (stack : List Interval) (quad : ℚ) (tp total : ℕ) :
    runQueue f 0 stack quad tp total = none := rfl

theorem simpsonRec_zero (f : ℚ → ℚ) (iv : Interval) : simpsonRec f 0 iv = none := rfl

theorem runQueue_cons (f : ℚ → ℚ) (n : ℕ) (iv : Interval) (rest : List Interval)
    (quad : ℚ) (tp total : ℕ) :
    runQueue f (n + 1) (iv :: rest) quad tp total =
      match refineStep f iv with
      | .accept v =>
        if tp + 1 = total then some (.exitedEarly (quad + v))
        else runQueue f n rest (quad + v) (tp + 1) total
      | .split i1 i2 => runQueue f n (i2 :: i1 :: rest) quad tp (total + 2) := rfl

theorem runQueue_nil (f : ℚ → ℚ) (n : ℕ) (quad : ℚ) (tp total : ℕ) :
    runQueue f (n + 1) [] quad tp total = some (.returned quad) := rfl

theorem simpsonRec_succ (f : ℚ → ℚ) (n : ℕ) (iv : Interval) :
    simpsonRec f (n + 1) iv =
      match refineStep f iv with
      | .accept v => some v
      | .split i1 i2 =>
        match simpsonRec f n i1, simpsonRec f n i2 with
        | some v1, some v2 => some (v1 + v2)
        | _, _ => none := rfl

theorem simpsonRec_accept (f : ℚ → ℚ) (n : ℕ) (iv : Interval) (v : ℚ)
    (h : refineStep f iv = .accept v) : simpsonRec f (n + 1) iv = some v := by
  rw [simpsonRec_succ, h]

theorem simpsonRec_split (f : ℚ → ℚ) (n : ℕ) (iv i1 i2 : Interval)
    (h : refineStep f iv = .split i1 i2) :
    simpsonRec f (n + 1) iv =
      match simpsonRec f n i1, simpsonRec f n i2 with
      | some v1, some v2 => some (v1 + v2)
      | _, _ => none := by
  rw [simpsonRec_succ, h]

theorem runQueue_accept (f : ℚ → ℚ) (n : ℕ) (iv : Interval) (rest : List Interval)
    (quad : ℚ) (tp total : ℕ) (v : ℚ) (h : refineStep f iv = .accept v) :
    runQueue f (n + 1) (iv :: rest) quad tp total =
      if tp + 1 = total then some (.exitedEarly (quad + v))
      else runQueue f n rest (quad + v) (tp + 1) total := by
  rw [runQueue_cons, h]

theorem runQueue_split (f : ℚ → ℚ) (n : ℕ) (iv i1 i2 : Interval) (rest : List Interval)
    (quad : ℚ) (tp total : ℕ) (h : refineStep f iv = .split i1 i2) :
    runQueue f (n + 1) (iv :: rest) quad tp total =
      runQueue f n (i2 :: i1 :: rest) quad tp (total + 2) := by
  rw [runQueue_cons, h]

/-! ## Concrete runs -/

theorem runQueue_f4 : runQueue f4 4 [iv4] 0 0 1 = some (.returned 20000) := by
  rw [runQueue_cons f4 3, refineStep_f4_root]
  show runQueue f4 3 [c42, c41] 0 0 3 = _
  rw [runQueue_cons f4 2, refineStep_f4_c42]
  show (if 0 + 1 = 3 then _ else runQueue f4 2 [c41] (0 + 19375) (0 + 1) 3) = _
  rw [if_neg (by omega : ¬(0 + 1 = 3))]
  rw [runQueue_cons f4 1, refineStep_f4_c41]
  show (if 0 + 1 + 1 = 3 then _ else runQueue f4 1 [] (0 + 19375 + 625) (0 + 1 + 1) 3) = _
  rw [if_neg (by omega : ¬(0 + 1 + 1 = 3))]
  rw [runQueue_nil]
  norm_num

theorem simpsonRec_f4 : simpsonRec f4 2 iv4 = some 20000 := by
  rw [simpsonRec_succ f4 1, refineStep_f4_root]
  show (match simpsonRec f4 1 c41, simpsonRec f4 1 c42 with
        | some v1, some v2 => some (v1 + v2)
        | _, _ => none) = _
  rw [simpsonRec_succ f4 0, refineStep_f4_c41, simpsonRec_succ f4 0, refineStep_f4_c42]
  norm_num

theorem runQueue_f5 : runQueue f5 1 [mkSeed f5] 0 0 1 = some (.exitedEarly 50) := by
  rw [runQueue_cons f5 0, refineStep_f5_seed]
  norm_num

theorem simpsonRec_f5 : simpsonRec f5 1 (mkSeed f5) = some 50 := by
  rw [simpsonRec_succ f5 0, refineStep_f5_seed]

/-! ## Concrete machine runs -/

theorem reach_haltMid : Solver2Reach f5 1 haltMid := by
  refine Solver2Reach.step Solver2Reach.init ?h
  exact Solver2Step.pop (solver2Init f5 1) 0 (mkSeed f5) [] rfl rfl rfl

theorem haltFinal_eq :
    haltFinal = { haltMid with quad := haltMid.quad + 50
                               total_processed := haltMid.total_processed + 1
                               acceptedWidth :=
                                 haltMid.acceptedWidth + ((mkSeed f5).right - (mkSeed f5).left)
                               threads := haltMid.threads.set 0 .exited, halted := true } := by
  simp only [haltFinal, haltMid, mkSeed, List.set]
  norm_num

theorem reach_haltFinal : Solver2Reach f5 1 haltFinal := by
  refine Solver2Reach.step reach_haltMid ?h
  rw [haltFinal_eq]
  exact Solver2Step.acceptHalt haltMid 0 (mkSeed f5) 50 rfl rfl refineStep_f5_seed rfl

theorem reach_cexMid : Solver2Reach f5 2 cexMid := by
  refine Solver2Reach.step Solver2Reach.init ?h
  exact Solver2Step.pop (solver2Init f5 2) 0 (mkSeed f5) [] rfl rfl rfl

theorem step_cexMid_cexExit : Solver2Step f5 cexMid cexExit :=
  Solver2Step.emptyExit cexMid 1 rfl rfl rfl

/-! ## Determinism of the recursive integrator and the stack decomposition -/

theorem simpEval_det {f : ℚ → ℚ} {iv : Interval} {v w : ℚ}
    (hv : SimpEval f iv v) (hw : SimpEval f iv w) : v = w := by
  induction hv generalizing w with
  | accept h =>
    cases hw with
    | accept h' =>
      rw [h] at h'
      exact RefineResult.accept.inj h'
    | split h' _ _ => rw [h] at h'; exact RefineResult.noConfusion h'
  | split h _ _ ih1 ih2 =>
    cases hw with
    | accept h' => rw [h] at h'; exact RefineResult.noConfusion h'
    | split h' hw1 hw2 =>
      rw [h] at h'
      injection h' with e1 e2
      subst e1; subst e2
      rw [ih1 hw1, ih2 hw2]

theorem simpsonRec_eval {f : ℚ → ℚ} :
    ∀ (n : ℕ) (iv : Interval) (v : ℚ), simpsonRec f n iv = some v → SimpEval f iv v := by
  intro n
  induction n with
  | zero => intro iv v h; rw [simpsonRec_zero] at h; exact Option.noConfusion h
  | succ m ih =>
    intro iv v h
    cases hr : refineStep f iv with
    | accept w =>
      rw [simpsonRec_accept f m iv w hr] at h
      injection h with e
      exact e ▸ SimpEval.accept hr
    | split i1 i2 =>
      rw [simpsonRec_split f m iv i1 i2 hr] at h
      cases h1 : simpsonRec f m i1 with
      | none => rw [h1] at h; exact Option.noConfusion h
      | some v1 =>
        cases h2 : simpsonRec f m i2 with
        | none => rw [h1, h2] at h; exact Option.noConfusion h
        | some v2 =>
          rw [h1, h2] at h
          injection h with e
          exact e ▸ SimpEval.split hr (ih i1 v1 h1) (ih i2 v2 h2)

theorem runQueue_returned {f : ℚ → ℚ} :
    ∀ (n : ℕ) (stack : List Interval) (acc : ℚ) (tp total : ℕ) (q : ℚ),
      runQueue f n stack acc tp total = some (.returned q) →
      ∃ σ, StackSum f stack σ ∧ q = acc + σ := by
  intro n
  induction n with
  | zero => intro stack acc tp total q h; rw [runQueue_zero] at h; exact Option.noConfusion h
  | succ m ih =>
    intro stack acc tp total q h
    cases stack with
    | nil =>
      rw [runQueue_nil] at h
      have e : acc = q := by
        injection h with h'
        injection h' with h''
      exact ⟨0, StackSum.nil, by rw [← e, add_zero]⟩
    | cons iv rest =>
      cases hr : refineStep f iv with
      | accept v =>
        rw [runQueue_accept f m iv rest acc tp total v hr] at h
        by_cases he : tp + 1 = total
        · rw [if_pos he] at h
          injection h with h'
          exact absurd h' (by simp)
        · rw [if_neg he] at h
          obtain ⟨σ, hσ, hq⟩ := ih rest (acc + v) (tp + 1) total q h
          exact ⟨v + σ, StackSum.cons (SimpEval.accept hr) hσ, by rw [hq]; ring⟩
      | split i1 i2 =>
        rw [runQueue_split f m iv i1 i2 rest acc tp total hr] at h
        obtain ⟨σ, hσ, hq⟩ := ih (i2 :: i1 :: rest) acc tp (total + 2) q h
        cases hσ with
        | cons hEv2 hrest1 =>
          cases hrest1 with
          | cons hEv1 hrest2 =>
            refine ⟨_, StackSum.cons (SimpEval.split hr hEv1 hEv2) hrest2, ?e⟩
            rw [hq]; ring

/-! ## Claim theorems -/

/-- Claim C9 (amended): whenever the solver2-1Queue worker loop, run with
exactly one worker thread from the seeded store (`total = 1`,
`total_processed = 0`), terminates by returning a value `q` to its
caller, and the non-parallel recursive adaptive Simpson integrator of
src/unnamed/part_002 terminates on the same seed interval with value
`r`, then `q = r`: both resolve the same accepted leaves with the same
contributions, summed in different orders. -/
theorem single_worker_matches_recursive (f : ℚ → ℚ) (iv : Interval) (n m : ℕ) (q r : ℚ)
    (hq : runQueue f n [iv] 0 0 1 = some (.returned q))
    (hr : simpsonRec f m iv = some r) : q = r := by
  obtain ⟨σ, hσ, he⟩ := runQueue_returned n [iv] 0 0 1 q hq
  cases hσ with
  | cons hEv hnil =>
    cases hnil
    have e := simpEval_det hEv (simpsonRec_eval m iv r hr)
    rw [he, e]; ring

/-- Witness for C9: on the quartic integrand over `[0,10]` with
tolerance 100 the seed splits once and both halves are accepted; the
single-worker queue run returns 20000 and the recursive integrator also
yields 20000. -/
theorem single_worker_matches_recursive_witness :
    runQueue f4 4 [iv4] 0 0 1 = some (.returned 20000) ∧
    simpsonRec f4 2 iv4 = some 20000 ∧ (20000 : ℚ) = 20000 :=
  ⟨runQueue_f4, simpsonRec_f4,
    single_worker_matches_recursive f4 iv4 4 2 20000 20000 runQueue_f4 simpsonRec_f4⟩

/-- Counterexample for C9 as stated: on the constant integrand 5 over
`[0,10]` the recursive integrator returns the result 50, but the
single-worker solver2-1Queue run hits the `exit(0)` path (the sole
acceptance makes `total_processed = total = 1`), so the work-store-based
integrator terminates the process without ever producing its result. -/
theorem single_worker_counterexample :
    runQueue f5 1 [mkSeed f5] 0 0 1 = some (.exitedEarly 50) ∧
    simpsonRec f5 1 (mkSeed f5) = some 50 ∧
    some (RunResult.exitedEarly 50) ≠ some (RunResult.returned 50) :=
  ⟨runQueue_f5, simpsonRec_f5, by simp⟩

/-- Claim C2: for every popped interval, the refinement step accepts
exactly when `|q2 - q1| < tolerance` or the width is below the absolute
floor `1e-12`, where `q1` and `q2` are the spec's 3-point and 5-point
Simpson estimates (the 5-point one sampling `f` at the quarter and
three-quarter points), and on acceptance the contribution is
`q2 + (q2 - q1)/15`. -/
theorem refineStep_kernel (f : ℚ → ℚ) (iv : Interval) :
    ((∃ v, refineStep f iv = .accept v) ↔
      (|q2spec f iv - q1spec iv| < iv.tol ∨ iv.right - iv.left < floorWidth)) ∧
    (∀ v, refineStep f iv = .accept v →
      v = q2spec f iv + (q2spec f iv - q1spec iv) / 15) := by
  by_cases hc : |q2spec f iv - q1spec iv| < iv.tol ∨ iv.right - iv.left < floorWidth
  · constructor
    · simp only [refineStep_eq, if_pos hc]
      exact ⟨fun _ => hc, fun _ => ⟨_, rfl⟩⟩
    · simp only [refineStep_eq, if_pos hc]
      intro v hv
      injection hv with e
      exact e.symm
  · constructor
    · simp only [refineStep_eq, if_neg hc]
      constructor
      · rintro ⟨v, hv⟩
        exact RefineResult.noConfusion hv
      · intro h
        exact absurd h hc
    · simp only [refineStep_eq, if_neg hc]
      intro v hv
      exact RefineResult.noConfusion hv

/-- Witness for C2: on the constant integrand the seed interval is
accepted and its contribution equals the error-corrected estimate. -/
theorem refineStep_kernel_witness :
    refineStep f5 (mkSeed f5) = .accept 50 ∧
    (50 : ℚ) = q2spec f5 (mkSeed f5) + (q2spec f5 (mkSeed f5) - q1spec (mkSeed f5)) / 15 :=
  ⟨refineStep_f5_seed, (refineStep_kernel f5 (mkSeed f5)).2 50 refineStep_f5_seed⟩

/-- Claim C7: the work store is a bounded stack: below capacity, a pop
immediately following `push iv s` returns `iv` and restores `s`; pushes
append at the top, pops remove the most recently inserted still-present
entry at the top, and a push keeps the entry count within `MAXQUEUE`. -/
theorem workstore_stack (s : Queue) (iv : Interval) :
    (s.entry.length < MAXQUEUE → ∃ s', enqueue iv s = some s' ∧ dequeue s' = some (iv, s)) ∧
    (∀ s', enqueue iv s = some s' → s'.entry = iv :: s.entry) ∧
    (∀ x rest, s.entry = x :: rest → dequeue s = some (x, ⟨rest⟩)) ∧
    (s.entry.length ≤ MAXQUEUE → ∀ s', enqueue iv s = some s' →
      s'.entry.length ≤ MAXQUEUE) := by
  refine ⟨?a, ?b, ?c, ?d⟩
  · intro h
    refine ⟨⟨iv :: s.entry⟩, ?e, rfl⟩
    unfold enqueue
    rw [if_neg (by omega)]
  · intro s' h
    by_cases hlen : s.entry.length = MAXQUEUE
    · unfold enqueue at h; rw [if_pos hlen] at h; cases h
    · unfold enqueue at h; rw [if_neg hlen] at h
      injection h with h'
      rw [← h']
  · intro x rest h
    unfold dequeue
    rw [h]
  · intro hle s' h
    by_cases hlen : s.entry.length = MAXQUEUE
    · unfold enqueue at h; rw [if_pos hlen] at h; cases h
    · unfold enqueue at h; rw [if_neg hlen] at h
      injection h with h'
      rw [← h']
      simp only [List.length_cons]
      omega

/-- Witness for C7: pushing onto the empty store and popping returns the
pushed interval and the empty store. -/
theorem workstore_stack_witness :
    ∃ s', enqueue iv4 ⟨[]⟩ = some s' ∧ dequeue s' = some (iv4, ⟨[]⟩) :=
  (workstore_stack ⟨[]⟩ iv4).1 (by norm_num [MAXQUEUE])

/-- Claim C10: under the worker-loop discipline `dequeue` is called only
after an emptiness check in the same critical section returned false,
and a pop from a store already observed non-empty always returns an
interval — the abort branch of `dequeue` is unreachable. -/
theorem dequeue_nonempty (q : Queue) (h : q.isempty = false) :
    ∃ iv q', dequeue q = some (iv, q') := by
  cases hq : q.entry with
  | nil => simp [Queue.isempty, hq] at h
  | cons x rest =>
    refine ⟨x, ⟨rest⟩, ?e⟩
    unfold dequeue
    rw [hq]

/-- Witness for C10: popping a store observed non-empty succeeds. -/
theorem dequeue_nonempty_witness :
    (Queue.mk [iv4]).isempty = false ∧ ∃ iv q', dequeue ⟨[iv4]⟩ = some (iv, q') :=
  ⟨rfl, dequeue_nonempty ⟨[iv4]⟩ rfl⟩

/-- Claim C3 (code defect exhibited): on the constant integrand with one
worker, the solver2-1Queue run reaches a state in which the whole
process has halted inside `exit(0)` (line 126): the result 50 is in the
accumulator but `simpson` never returns it to `main`, so nothing is
output. -/
theorem exit_before_return :
    Solver2Reach f5 1 haltFinal ∧ haltFinal.halted = true ∧ haltFinal.quad = 50 :=
  ⟨reach_haltFinal, rfl, rfl⟩

/-- Claim C1 (amended, part_000 variant): the `done` flag is set only in
a step that observes, inside the one critical section, an empty store
together with `total_processed = total`; a thread leaves its loop only
when `done` is already set or in the very step that legitimately sets
it; and a thread that finds the store empty while the counters differ
(and `done` unset) is still in its loop after the step. -/
theorem part000_flag_discipline (f : ℚ → ℚ) (s s' : PState) (hstep : Part000Step f s s') :
    ((s.done = false ∧ s'.done = true) → (s.queue = [] ∧ s.total_processed = s.total)) ∧
    (∀ t, s.threads.get? t = some .idle → s'.threads.get? t = some .exited →
      (s.done = true ∨ (s.queue = [] ∧ s.total_processed = s.total))) ∧
    (∀ t, s.queue = [] → s.total_processed ≠ s.total → s.done = false →
      s.threads.get? t = some .idle → s'.threads.get? t = some .idle) := by
  cases hstep with
  | exitDone t hidle hdone =>
    refine ⟨?_, fun _ _ _ => Or.inl hdone, ?_⟩
    · rintro ⟨h1, _⟩
      rw [h1] at hdone
      exact Bool.noConfusion hdone
    · intro t' _ _ hdonef _
      rw [hdonef] at hdone
      exact Bool.noConfusion hdone
  | pop t iv rest hidle hq =>
    refine ⟨?_, ?_, ?_⟩
    · rintro ⟨h1, h2⟩
      have h2' : s.done = true := h2
      rw [h1] at h2'
      exact Bool.noConfusion h2'
    · intro t' hidle' hexited'
      have hex : (s.threads.set t (.working iv)).get? t' = some TState.exited := hexited'
      by_cases e : t = t'
      · subst e
        rw [get?_set_self s.threads t (TState.working iv) TState.idle hidle] at hex
        injection hex with e'
        exact TState.noConfusion e'
      · rw [get?_set_other s.threads t t' _ e] at hex
        rw [hidle'] at hex
        injection hex with e'
        exact TState.noConfusion e'
    · intro t' hq' _ _ _
      rw [hq] at hq'
      exact List.noConfusion hq'
  | setDone t hidle hq htp =>
    refine ⟨fun _ => ⟨hq, htp⟩, fun t' _ _ => Or.inr ⟨hq, htp⟩, ?_⟩
    intro t' _ htp' _ _
    exact absurd htp htp'
  | retry t hidle hq htp hdone =>
    refine ⟨?_, ?_, fun t' _ _ _ hidle' => hidle'⟩
    · rintro ⟨h1, h2⟩
      rw [h1] at h2
      exact Bool.noConfusion h2
    · intro t' hidle' hexited'
      rw [hidle'] at hexited'
      injection hexited' with e'
      exact TState.noConfusion e'
  | accept t iv v hwork hacc =>
    refine ⟨?_, ?_, ?_⟩
    · rintro ⟨h1, h2⟩
      have h2' : s.done = true := h2
      rw [h1] at h2'
      exact Bool.noConfusion h2'
    · intro t' hidle' hexited'
      have hex : (s.threads.set t .idle).get? t' = some TState.exited := hexited'
      by_cases e : t = t'
      · subst e
        rw [get?_set_self s.threads t TState.idle (TState.working iv) hwork] at hex
        injection hex with e'
        exact TState.noConfusion e'
      · rw [get?_set_other s.threads t t' _ e] at hex
        rw [hidle'] at hex
        injection hex with e'
        exact TState.noConfusion e'
    · intro t' _ _ _ hidle'
      show (s.threads.set t .idle).get? t' = some TState.idle
      by_cases e : t = t'
      · subst e
        exact get?_set_self s.threads t TState.idle (TState.working iv) hwork
      · rw [get?_set_other s.threads t t' _ e]
        exact hidle'
  | psplit t iv i1 i2 hwork hsplit =>
    refine ⟨?_, ?_, ?_⟩
    · rintro ⟨h1, h2⟩
      have h2' : s.done = true := h2
      rw [h1] at h2'
      exact Bool.noConfusion h2'
    · intro t' hidle' hexited'
      have hex : (s.threads.set t .idle).get? t' = some TState.exited := hexited'
      by_cases e : t = t'
      · subst e
        rw [get?_set_self s.threads t TState.idle (TState.working iv) hwork] at hex
        injection hex with e'
        exact TState.noConfusion e'
      · rw [get?_set_other s.threads t t' _ e] at hex
        rw [hidle'] at hex
        injection hex with e'
        exact TState.noConfusion e'
    · intro t' _ _ _ hidle'
      show (s.threads.set t .idle).get? t' = some TState.idle
      by_cases e : t = t'
      · subst e
        exact get?_set_self s.threads t TState.idle (TState.working iv) hwork
      · rw [get?_set_other s.threads t t' _ e]
        exact hidle'

/-- Witness for the amended C1: the discipline instantiated at the
concrete pop step of a one-worker part_000 run. -/
theorem part000_flag_discipline_witness :
    ((p0.done = false ∧ p1.done = true) → (p0.queue = [] ∧ p0.total_processed = p0.total)) ∧
    (∀ t, p0.threads.get? t = some .idle → p1.threads.get? t = some .exited →
      (p0.done = true ∨ (p0.queue = [] ∧ p0.total_processed = p0.total))) ∧
    (∀ t, p0.queue = [] → p0.total_processed ≠ p0.total → p0.done = false →
      p0.threads.get? t = some .idle → p1.threads.get? t = some .idle) :=
  part000_flag_discipline f5 p0 p1 (Part000Step.pop p0 0 (mkSeed f5) [] rfl rfl)

/-- Counterexample for C1 as stated: in the solver2-1Queue worker loop a
thread does exit its loop merely because the store is momentarily empty.
In the reachable two-worker state `cexMid` (worker 0 holds the popped
seed interval), worker 1 observes the empty store while
`total_processed = 0 ≠ 1 = total` and exits its loop rather than
retrying. -/
theorem empty_exit_counterexample :
    Solver2Reach f5 2 cexMid ∧ Solver2Step f5 cexMid cexExit ∧
    cexMid.queue = [] ∧ cexMid.total_processed ≠ cexMid.total ∧
    cexMid.threads.get? 1 = some TState.idle ∧
    cexExit.threads.get? 1 = some TState.exited :=
  ⟨reach_cexMid, step_cexMid_cexExit, rfl, by decide, rfl, rfl⟩

/-! ## Splitting, well-formedness and the machine invariants -/

theorem refineStep_split_children (f : ℚ → ℚ) (iv i1 i2 : Interval)
    (h : refineStep f iv = .split i1 i2) :
    i1 = { left := iv.left, right := (iv.left + iv.right) / 2, tol := iv.tol,
           f_left := iv.f_left, f_mid := f (iv.left + (iv.right - iv.left) / 4),
           f_right := iv.f_mid } ∧
    i2 = { left := (iv.left + iv.right) / 2, right := iv.right, tol := iv.tol,
           f_left := iv.f_mid, f_mid := f (iv.left + 3 * ((iv.right - iv.left) / 4)),
           f_right := iv.f_right } := by
  rw [refineStep_eq] at h
  by_cases hc : |q2spec f iv - q1spec iv| < iv.tol ∨ iv.right - iv.left < floorWidth
  · rw [if_pos hc] at h
    exact RefineResult.noConfusion h
  · rw [if_neg hc] at h
    injection h with e1 e2
    exact ⟨e1.symm, e2.symm⟩

theorem wf_children (f : ℚ → ℚ) (iv i1 i2 : Interval) (hwf : WFInterval f iv)
    (h : refineStep f iv = .split i1 i2) : WFInterval f i1 ∧ WFInterval f i2 := by
  obtain ⟨hlt, hfl, hfm, hfr⟩ := hwf
  obtain ⟨e1, e2⟩ := refineStep_split_children f iv i1 i2 h
  subst e1; subst e2
  constructor
  · refine ⟨?_, ?_, ?_, ?_⟩
    · show iv.left < (iv.left + iv.right) / 2
      linarith
    · show iv.f_left = f iv.left
      exact hfl
    · show f (iv.left + (iv.right - iv.left) / 4) = f ((iv.left + (iv.left + iv.right) / 2) / 2)
      exact congrArg f (by ring)
    · show iv.f_mid = f ((iv.left + iv.right) / 2)
      exact hfm
  · refine ⟨?_, ?_, ?_, ?_⟩
    · show (iv.left + iv.right) / 2 < iv.right
      linarith
    · show iv.f_mid = f ((iv.left + iv.right) / 2)
      exact hfm
    · show f (iv.left + 3 * ((iv.right - iv.left) / 4)) = f (((iv.left + iv.right) / 2 + iv.right) / 2)
      exact congrArg f (by ring)
    · show iv.f_right = f iv.right
      exact hfr

theorem solver2_wf_step {f : ℚ → ℚ} {s s' : MState} (hstep : Solver2Step f s s')
    (ih : ∀ iv, (iv ∈ s.queue ∨ TState.working iv ∈ s.threads) → WFInterval f iv) :
    ∀ iv, (iv ∈ s'.queue ∨ TState.working iv ∈ s'.threads) → WFInterval f iv := by
  cases hstep with
  | pop t iv0 rest hh hidle hq =>
    intro iv hmem
    rcases hmem with hm | hm
    · exact ih iv (Or.inl (by rw [hq]; exact List.mem_cons_of_mem _ hm))
    · rcases mem_of_mem_set hm with hm' | hm'
      · exact ih iv (Or.inr hm')
      · injection hm' with e
        subst e
        exact ih iv (Or.inl (by rw [hq]; exact List.mem_cons_self _ _))
  | emptyExit t hh hidle hq =>
    intro iv hmem
    rcases hmem with hm | hm
    · exact ih iv (Or.inl hm)
    · rcases mem_of_mem_set hm with hm' | hm'
      · exact ih iv (Or.inr hm')
      · exact TState.noConfusion hm'
  | acceptCont t iv0 v hh hw hacc hne =>
    intro iv hmem
    rcases hmem with hm | hm
    · exact ih iv (Or.inl hm)
    · rcases mem_of_mem_set hm with hm' | hm'
      · exact ih iv (Or.inr hm')
      · exact TState.noConfusion hm'
  | acceptHalt t iv0 v hh hw hacc heq =>
    intro iv hmem
    rcases hmem with hm | hm
    · exact ih iv (Or.inl hm)
    · rcases mem_of_mem_set hm with hm' | hm'
      · exact ih iv (Or.inr hm')
      · exact TState.noConfusion hm'
  | split t iv0 i1 i2 hh hw hsplit =>
    intro iv hmem
    have hwf0 : WFInterval f iv0 := ih iv0 (Or.inr (List.get?_mem hw))
    have hch := wf_children f iv0 i1 i2 hwf0 hsplit
    rcases hmem with hm | hm
    · rcases List.mem_cons.mp hm with h1 | h1
      · exact h1 ▸ hch.2
      · rcases List.mem_cons.mp h1 with h2 | h2
        · exact h2 ▸ hch.1
        · exact ih iv (Or.inl h2)
    · rcases mem_of_mem_set hm with hm' | hm'
      · exact ih iv (Or.inr hm')
      · exact TState.noConfusion hm'

theorem solver2_wf (f : ℚ → ℚ) (n : ℕ) :
    ∀ s, Solver2Reach f n s →
      ∀ iv, (iv ∈ s.queue ∨ TState.working iv ∈ s.threads) → WFInterval f iv := by
  intro s h
  induction h with
  | init =>
    intro iv hmem
    rcases hmem with hm | hm
    · have e : iv = mkSeed f := by
        rcases List.mem_cons.mp hm with h1 | h1
        · exact h1
        · exact absurd h1 (List.not_mem_nil iv)
      subst e
      refine ⟨by norm_num [mkSeed], rfl, rfl, rfl⟩
    · have := List.eq_of_mem_replicate hm
      exact TState.noConfusion this
  | step hprev hstep ih => exact solver2_wf_step hstep ih

theorem solver2_J_step {f : ℚ → ℚ} {s s' : MState} (hstep : Solver2Step f s s')
    (ih : Odd s.total ∧
      s.total_processed + s.queue.length + (s.threads.map workOne).sum ≤ s.total) :
    Odd s'.total ∧
      s'.total_processed + s'.queue.length + (s'.threads.map workOne).sum ≤ s'.total := by
  obtain ⟨hodd, hle⟩ := ih
  cases hstep with
  | pop t iv rest hh hidle hq =>
    refine ⟨hodd, ?_⟩
    have hms := map_sum_set workOne s.threads t (.working iv) .idle hidle
    have hq' : s.queue.length = rest.length + 1 := by rw [hq]; rfl
    show s.total_processed + rest.length
        + ((s.threads.set t (.working iv)).map workOne).sum ≤ s.total
    have h1 : workOne TState.idle = 0 := rfl
    have h2 : workOne (TState.working iv) = 1 := rfl
    omega
  | emptyExit t hh hidle hq =>
    refine ⟨hodd, ?_⟩
    have hms := map_sum_set workOne s.threads t .exited .idle hidle
    show s.total_processed + s.queue.length
        + ((s.threads.set t .exited).map workOne).sum ≤ s.total
    have h1 : workOne TState.idle = 0 := rfl
    have h2 : workOne TState.exited = 0 := rfl
    omega
  | acceptCont t iv v hh hw hacc hne =>
    refine ⟨hodd, ?_⟩
    have hms := map_sum_set workOne s.threads t .idle (.working iv) hw
    show s.total_processed + 1 + s.queue.length
        + ((s.threads.set t .idle).map workOne).sum ≤ s.total
    have h1 : workOne TState.idle = 0 := rfl
    have h2 : workOne (TState.working iv) = 1 := rfl
    omega
  | acceptHalt t iv v hh hw hacc heq =>
    refine ⟨hodd, ?_⟩
    have hms := map_sum_set workOne s.threads t .exited (.working iv) hw
    show s.total_processed + 1 + s.queue.length
        + ((s.threads.set t .exited).map workOne).sum ≤ s.total
    have h1 : workOne TState.exited = 0 := rfl
    have h2 : workOne (TState.working iv) = 1 := rfl
    omega
  | split t iv i1 i2 hh hw hsplit =>
    constructor
    · show Odd (s.total + 2)
      rcases hodd with ⟨k, hk⟩
      exact ⟨k + 1, by omega⟩
    · have hms := map_sum_set workOne s.threads t .idle (.working iv) hw
      show s.total_processed + (i2 :: i1 :: s.queue).length
          + ((s.threads.set t .idle).map workOne).sum ≤ s.total + 2
      have hlen : (i2 :: i1 :: s.queue).length = s.queue.length + 2 := rfl
      have h1 : workOne TState.idle = 0 := rfl
      have h2 : workOne (TState.working iv) = 1 := rfl
      omega

theorem solver2_J (f : ℚ → ℚ) (n : ℕ) :
    ∀ s, Solver2Reach f n s →
      Odd s.total ∧
        s.total_processed + s.queue.length + (s.threads.map workOne).sum ≤ s.total := by
  intro s h
  induction h with
  | init =>
    constructor
    · exact ⟨0, rfl⟩
    · show 0 + [mkSeed f].length + ((List.replicate n TState.idle).map workOne).sum ≤ 1
      rw [List.map_replicate]
      have h0 : workOne TState.idle = 0 := rfl
      rw [h0, List.sum_replicate, smul_zero]
      simp
  | step hprev hstep ih => exact solver2_J_step hstep ih

theorem solver2_width_step {f : ℚ → ℚ} {s s' : MState} (hstep : Solver2Step f s s')
    (ih : s.acceptedWidth + (s.queue.map width).sum + (s.threads.map widthOf).sum
      = (mkSeed f).right - (mkSeed f).left) :
    s'.acceptedWidth + (s'.queue.map width).sum + (s'.threads.map widthOf).sum
      = (mkSeed f).right - (mkSeed f).left := by
  cases hstep with
  | pop t iv rest hh hidle hq =>
    have hms := map_sum_set widthOf s.threads t (.working iv) .idle hidle
    have hqs : (s.queue.map width).sum = width iv + (rest.map width).sum := by
      rw [hq, List.map_cons, List.sum_cons]
    show s.acceptedWidth + (rest.map width).sum
        + ((s.threads.set t (.working iv)).map widthOf).sum = _
    have h1 : widthOf TState.idle = 0 := rfl
    have h2 : widthOf (TState.working iv) = width iv := rfl
    rw [h1, h2] at hms
    linarith [ih, hms, hqs]
  | emptyExit t hh hidle hq =>
    have hms := map_sum_set widthOf s.threads t .exited .idle hidle
    show s.acceptedWidth + (s.queue.map width).sum
        + ((s.threads.set t .exited).map widthOf).sum = _
    have h1 : widthOf TState.idle = 0 := rfl
    have h2 : widthOf TState.exited = 0 := rfl
    rw [h1, h2] at hms
    linarith [ih, hms]
  | acceptCont t iv v hh hw hacc hne =>
    have hms := map_sum_set widthOf s.threads t .idle (.working iv) hw
    show s.acceptedWidth + (iv.right - iv.left) + (s.queue.map width).sum
        + ((s.threads.set t .idle).map widthOf).sum = _
    have h1 : widthOf TState.idle = 0 := rfl
    have h2 : widthOf (TState.working iv) = width iv := rfl
    rw [h1, h2] at hms
    have h3 : width iv = iv.right - iv.left := rfl
    linarith [ih, hms]
  | acceptHalt t iv v hh hw hacc heq =>
    have hms := map_sum_set widthOf s.threads t .exited (.working iv) hw
    show s.acceptedWidth + (iv.right - iv.left) + (s.queue.map width).sum
        + ((s.threads.set t .exited).map widthOf).sum = _
    have h1 : widthOf TState.exited = 0 := rfl
    have h2 : widthOf (TState.working iv) = width iv := rfl
    rw [h1, h2] at hms
    have h3 : width iv = iv.right - iv.left := rfl
    linarith [ih, hms]
  | split t iv i1 i2 hh hw hsplit =>
    have hms := map_sum_set widthOf s.threads t .idle (.working iv) hw
    obtain ⟨e1, e2⟩ := refineStep_split_children f iv i1 i2 hsplit
    have hw1 : width i1 = (iv.right - iv.left) / 2 := by
      rw [e1]
      show (iv.left + iv.right) / 2 - iv.left = _
      ring
    have hw2 : width i2 = (iv.right - iv.left) / 2 := by
      rw [e2]
      show iv.right - (iv.left + iv.right) / 2 = _
      ring
    show s.acceptedWidth + ((i2 :: i1 :: s.queue).map width).sum
        + ((s.threads.set t .idle).map widthOf).sum = _
    rw [List.map_cons, List.map_cons, List.sum_cons, List.sum_cons]
    have h1 : widthOf TState.idle = 0 := rfl
    have h2 : widthOf (TState.working iv) = width iv := rfl
    rw [h1, h2] at hms
    have h3 : width iv = iv.right - iv.left := rfl
    linarith [ih, hms]

theorem solver2_width (f : ℚ → ℚ) (n : ℕ) :
    ∀ s, Solver2Reach f n s →
      s.acceptedWidth + (s.queue.map width).sum + (s.threads.map widthOf).sum
        = (mkSeed f).right - (mkSeed f).left := by
  intro s h
  induction h with
  | init =>
    show (0:ℚ) + ([mkSeed f].map width).sum
        + ((List.replicate n TState.idle).map widthOf).sum = _
    rw [List.map_replicate]
    have h0 : widthOf TState.idle = 0 := rfl
    rw [h0, List.sum_replicate, smul_zero]
    show (0:ℚ) + (width (mkSeed f) + 0) + 0 = _
    have h3 : width (mkSeed f) = (mkSeed f).right - (mkSeed f).left := rfl
    rw [h3]
    ring
  | step hprev hstep ih => exact solver2_width_step hstep ih

/-- Claim C5: at every reachable instant of any solver2-1Queue run,
`total_processed ≤ total` and `total` is odd; `total` starts at 1 and
`total_processed` at 0, and each step either leaves `total` unchanged or
adds exactly 2 (a split), and either leaves `total_processed` unchanged
or adds exactly 1 (an acceptance). -/
theorem counter_invariant :
    (∀ (f : ℚ → ℚ) (n : ℕ) (s : MState), Solver2Reach f n s →
      s.total_processed ≤ s.total ∧ Odd s.total) ∧
    (∀ (f : ℚ → ℚ) (n : ℕ),
      (solver2Init f n).total = 1 ∧ (solver2Init f n).total_processed = 0) ∧
    (∀ (f : ℚ → ℚ) (s s' : MState), Solver2Step f s s' →
      (s'.total = s.total ∨ s'.total = s.total + 2) ∧
      (s'.total_processed = s.total_processed ∨
        s'.total_processed = s.total_processed + 1)) := by
  refine ⟨?_, fun f n => ⟨rfl, rfl⟩, ?_⟩
  · intro f n s h
    obtain ⟨hodd, hle⟩ := solver2_J f n s h
    exact ⟨by omega, hodd⟩
  · intro f s s' hstep
    cases hstep with
    | pop t iv rest hh hidle hq => exact ⟨Or.inl rfl, Or.inl rfl⟩
    | emptyExit t hh hidle hq => exact ⟨Or.inl rfl, Or.inl rfl⟩
    | acceptCont t iv v hh hw hacc hne => exact ⟨Or.inl rfl, Or.inr rfl⟩
    | acceptHalt t iv v hh hw hacc heq => exact ⟨Or.inl rfl, Or.inr rfl⟩
    | split t iv i1 i2 hh hw hsplit => exact ⟨Or.inr rfl, Or.inl rfl⟩

/-- Witness for C5: the invariant instantiated at the initial state and
the delta clause at a concrete pop step. -/
theorem counter_invariant_witness :
    ((solver2Init f5 1).total_processed ≤ (solver2Init f5 1).total ∧
      Odd (solver2Init f5 1).total) ∧
    ((haltMid.total = (solver2Init f5 1).total ∨
        haltMid.total = (solver2Init f5 1).total + 2) ∧
      (haltMid.total_processed = (solver2Init f5 1).total_processed ∨
        haltMid.total_processed = (solver2Init f5 1).total_processed + 1)) :=
  ⟨counter_invariant.1 f5 1 (solver2Init f5 1) Solver2Reach.init,
    counter_invariant.2.2 f5 (solver2Init f5 1) haltMid
      (Solver2Step.pop (solver2Init f5 1) 0 (mkSeed f5) [] rfl rfl rfl)⟩

/-- Claim C4: every interval ever present in a reachable state (the
driver's seed and every split child) is well-formed — ordered boundaries
and genuinely cached evaluations — and a split reuses the parent's
cached values without re-evaluating `f` at reused points: the left child
takes the parent's `f_left` and `f_mid` and the quarter-point value as
its midpoint, the right child takes the parent's `f_mid` and `f_right`
and the three-quarter-point value, with the tolerance copied unchanged. -/
theorem interval_invariant :
    (∀ (f : ℚ → ℚ) (n : ℕ) (s : MState), Solver2Reach f n s →
      ∀ iv, (iv ∈ s.queue ∨ TState.working iv ∈ s.threads) → WFInterval f iv) ∧
    (∀ (f : ℚ → ℚ) (iv i1 i2 : Interval), refineStep f iv = .split i1 i2 →
      i1.f_left = iv.f_left ∧ i1.f_right = iv.f_mid ∧ i2.f_left = iv.f_mid ∧
      i2.f_right = iv.f_right ∧ i1.tol = iv.tol ∧ i2.tol = iv.tol ∧
      i1.f_mid = f (iv.left + (iv.right - iv.left) / 4) ∧
      i2.f_mid = f (iv.left + 3 * ((iv.right - iv.left) / 4))) := by
  refine ⟨solver2_wf, ?_⟩
  intro f iv i1 i2 h
  obtain ⟨e1, e2⟩ := refineStep_split_children f iv i1 i2 h
  subst e1; subst e2
  exact ⟨rfl, rfl, rfl, rfl, rfl, rfl, rfl, rfl⟩

/-- Witness for C4: the seed interval of the driver is well-formed. -/
theorem interval_invariant_witness : WFInterval f5 (mkSeed f5) :=
  interval_invariant.1 f5 1 (solver2Init f5 1) Solver2Reach.init (mkSeed f5)
    (Or.inl (List.mem_cons_self _ _))

/-- Claim C6: a split preserves width — the two children's widths sum
exactly to the parent's — and in any completed run (store empty, every
worker exited) the summed width of all accepted intervals equals the
original domain width exactly. -/
theorem width_conservation :
    (∀ (f : ℚ → ℚ) (iv i1 i2 : Interval), refineStep f iv = .split i1 i2 →
      (i1.right - i1.left) + (i2.right - i2.left) = iv.right - iv.left) ∧
    (∀ (f : ℚ → ℚ) (n : ℕ) (s : MState), Solver2Reach f n s → s.queue = [] →
      (∀ t ∈ s.threads, t = TState.exited) →
      s.acceptedWidth = (mkSeed f).right - (mkSeed f).left) := by
  constructor
  · intro f iv i1 i2 h
    obtain ⟨e1, e2⟩ := refineStep_split_children f iv i1 i2 h
    subst e1; subst e2
    show ((iv.left + iv.right) / 2 - iv.left) + (iv.right - (iv.left + iv.right) / 2)
        = iv.right - iv.left
    ring
  · intro f n s h hq hex
    have hw := solver2_width f n s h
    rw [hq] at hw
    have hz : (s.threads.map widthOf).sum = 0 := by
      apply List.sum_eq_zero
      intro x hx
      rcases List.mem_map.mp hx with ⟨t, htl, rfl⟩
      rw [hex t htl]
      rfl
    rw [hz] at hw
    simpa using hw

/-- Witness for C6: the completed one-worker run on the constant
integrand accepted a total width of exactly 10 = right - left. -/
theorem width_conservation_witness :
    haltFinal.acceptedWidth = (mkSeed f5).right - (mkSeed f5).left :=
  width_conservation.2 f5 1 haltFinal reach_haltFinal rfl
    (by
      intro t ht
      rcases List.mem_cons.mp ht with h1 | h1
      · exact h1
      · exact absurd h1 (List.not_mem_nil t))

/-! ## Termination: every step strictly decreases the potential -/

theorem depthNeed_spec (iv : Interval) :
    iv.right - iv.left < 2 ^ depthNeed iv * floorWidth := by
  unfold depthNeed
  exact Nat.find_spec (p := fun k => iv.right - iv.left < 2 ^ k * floorWidth) _

theorem depthNeed_le {iv : Interval} {n : ℕ}
    (h : iv.right - iv.left < 2 ^ n * floorWidth) : depthNeed iv ≤ n := by
  unfold depthNeed
  apply Nat.find_min'
  exact h

theorem split_not_small {f : ℚ → ℚ} {iv i1 i2 : Interval}
    (h : refineStep f iv = .split i1 i2) : ¬(iv.right - iv.left < floorWidth) := by
  intro hw
  rw [refineStep_eq, if_pos (Or.inr hw)] at h
  exact RefineResult.noConfusion h

theorem depthNeed_pos {f : ℚ → ℚ} {iv i1 i2 : Interval}
    (h : refineStep f iv = .split i1 i2) : 1 ≤ depthNeed iv := by
  by_contra h0
  push_neg at h0
  have e0 : depthNeed iv = 0 := by omega
  have hs := depthNeed_spec iv
  rw [e0, pow_zero, one_mul] at hs
  exact split_not_small h hs

theorem depthNeed_child {iv c : Interval} (hw : c.right - c.left = (iv.right - iv.left) / 2)
    (hpos : 1 ≤ depthNeed iv) : depthNeed c ≤ depthNeed iv - 1 := by
  apply depthNeed_le
  have hs := depthNeed_spec iv
  have h2 : (2:ℚ) ^ depthNeed iv = 2 * 2 ^ (depthNeed iv - 1) := by
    have e : depthNeed iv = (depthNeed iv - 1) + 1 := by omega
    conv_lhs => rw [e]
    rw [pow_succ]
    ring
  rw [h2] at hs
  rw [hw]
  linarith

theorem pot_ge (iv : Interval) : 3 ≤ pot iv := by
  unfold pot
  have h1 : 1 ≤ 2 ^ depthNeed iv := Nat.one_le_pow _ 2 (by norm_num)
  omega

theorem pot_split {f : ℚ → ℚ} {iv i1 i2 : Interval} (h : refineStep f iv = .split i1 i2) :
    pot i1 + pot i2 + 1 < pot iv := by
  have hpos := depthNeed_pos h
  obtain ⟨e1, e2⟩ := refineStep_split_children f iv i1 i2 h
  have hw1 : i1.right - i1.left = (iv.right - iv.left) / 2 := by
    rw [e1]
    show (iv.left + iv.right) / 2 - iv.left = _
    ring
  have hw2 : i2.right - i2.left = (iv.right - iv.left) / 2 := by
    rw [e2]
    show iv.right - (iv.left + iv.right) / 2 = _
    ring
  have hd1 := depthNeed_child hw1 hpos
  have hd2 := depthNeed_child hw2 hpos
  have hm1 : 2 ^ depthNeed i1 ≤ 2 ^ (depthNeed iv - 1) :=
    Nat.pow_le_pow_right (by norm_num) hd1
  have hm2 : 2 ^ depthNeed i2 ≤ 2 ^ (depthNeed iv - 1) :=
    Nat.pow_le_pow_right (by norm_num) hd2
  have h2 : 2 ^ depthNeed iv = 2 * 2 ^ (depthNeed iv - 1) := by
    have e : depthNeed iv = (depthNeed iv - 1) + 1 := by omega
    conv_lhs => rw [e]
    rw [pow_succ]
    ring
  have hone : 1 ≤ 2 ^ (depthNeed iv - 1) := Nat.one_le_pow _ 2 (by norm_num)
  unfold pot
  omega

theorem psi_decrease {f : ℚ → ℚ} {s s' : MState} (h : Solver2Step f s s') :
    psi s' < psi s := by
  cases h with
  | pop t iv rest hh hidle hq =>
    have hms := map_sum_set tmeasure s.threads t (.working iv) .idle hidle
    have hqs : (s.queue.map pot).sum = pot iv + (rest.map pot).sum := by
      rw [hq, List.map_cons, List.sum_cons]
    show (rest.map pot).sum + ((s.threads.set t (.working iv)).map tmeasure).sum < psi s
    unfold psi
    have h1 : tmeasure TState.idle = 2 := rfl
    have h2 : tmeasure (TState.working iv) = pot iv + 1 := rfl
    omega
  | emptyExit t hh hidle hq =>
    have hms := map_sum_set tmeasure s.threads t .exited .idle hidle
    show (s.queue.map pot).sum + ((s.threads.set t .exited).map tmeasure).sum < psi s
    unfold psi
    have h1 : tmeasure TState.idle = 2 := rfl
    have h2 : tmeasure TState.exited = 0 := rfl
    omega
  | acceptCont t iv v hh hw hacc hne =>
    have hms := map_sum_set tmeasure s.threads t .idle (.working iv) hw
    have hp := pot_ge iv
    show (s.queue.map pot).sum + ((s.threads.set t .idle).map tmeasure).sum < psi s
    unfold psi
    have h1 : tmeasure TState.idle = 2 := rfl
    have h2 : tmeasure (TState.working iv) = pot iv + 1 := rfl
    omega
  | acceptHalt t iv v hh hw hacc heq =>
    have hms := map_sum_set tmeasure s.threads t .exited (.working iv) hw
    show (s.queue.map pot).sum + ((s.threads.set t .exited).map tmeasure).sum < psi s
    unfold psi
    have h1 : tmeasure TState.exited = 0 := rfl
    have h2 : tmeasure (TState.working iv) = pot iv + 1 := rfl
    omega
  | split t iv i1 i2 hh hw hsplit =>
    have hms := map_sum_set tmeasure s.threads t .idle (.working iv) hw
    have hp := pot_split hsplit
    show ((i2 :: i1 :: s.queue).map pot).sum
        + ((s.threads.set t .idle).map tmeasure).sum < psi s
    rw [List.map_cons, List.map_cons, List.sum_cons, List.sum_cons]
    unfold psi
    have h1 : tmeasure TState.idle = 2 := rfl
    have h2 : tmeasure (TState.working iv) = pot iv + 1 := rfl
    omega

/-- Claim C8: the computation terminates after finitely many
pop/accept/split steps, for every integrand (hence for every tolerance,
positive or not) and from every state: there is no infinite chain of
solver2-1Queue steps, because repeated halving drives every interval's
width below the `1e-12` floor, which forces acceptance — formally, the
potential `psi` (built from the number of halvings each interval still
needs) strictly decreases on every step. -/
theorem solver2_terminates (f : ℚ → ℚ) (seq : ℕ → MState) :
    ∃ n, ¬ Solver2Step f (seq n) (seq (n + 1)) := by
  by_contra hall
  push_neg at hall
  have hdec : ∀ n, psi (seq (n + 1)) < psi (seq n) := fun n => psi_decrease (hall n)
  have hb : ∀ n, psi (seq n) + n ≤ psi (seq 0) := by
    intro n
    induction n with
    | zero => omega
    | succ k ih =>
      have := hdec k
      omega
  have := hb (psi (seq 0) + 1)
  omega

end AdaptiveQuad
